import Mathlib

/-!
Shallow embedding of the LIGHTNINGFLOW execution engine
(`src/lightning_flow/core.py`), the authoritative module for the engine: the
state enums, `TaskData`/`TaskContext`, `Task.run`, `Job.state`/`Job.tasks`,
`Workflow._make_graph` and `Workflow.run`.  Tasks are identified by natural
numbers (the Python graph identifies tasks by object identity).  Machine-level
Python behaviours that the claims depend on are modelled explicitly:

* calling a non-callable value raises `TypeError`;
* constructing `TaskContext` without its required positional arguments raises
  `TypeError`;
* `networkx.DiGraph.add_edge` on an unhashable node (a Python `list`) raises
  `TypeError`;
* assigning to a property that defines no setter raises `AttributeError`.

`networkx` is an external library; its three entry points used by the source
(`add_edge`/`add_node`, `is_directed_acyclic_graph`,
`lexicographical_topological_sort`) are modelled from their documented
semantics: insertion-ordered node/edge sets, Kahn-style acyclicity, and the
greedy key-minimal topological sort.
-/

namespace LightningFlow

/-- Python exception kinds observed by the engine (`core.py` raises or
propagates exactly these).  `dagInvalid`/`dagUndefined` model the repository's
`DirectedAcyclicGraphInvalid`/`DirectedAcyclicGraphUndefined` exceptions. -/
inductive PyErr where
  | typeError
  | valueError
  | attributeError
  | dagInvalid
  | dagUndefined
deriving DecidableEq, Repr

/-- `TaskState` (core.py:84-91). -/
inductive TaskState where
  | PENDING
  | INPROGRESS
  | SUCCESS
  | FAILURE
  | SKIPPED
deriving DecidableEq, Repr

/-- `JobState` (core.py:214-221). -/
inductive JobState where
  | PENDING
  | PAUSED
  | INPROGRESS
  | SUCCESS
  | FAILURE
  | SKIPPED
deriving DecidableEq, Repr

/-- `WorkflowState` (core.py:295-302). -/
inductive WorkflowState where
  | PENDING
  | INPROGRESS
  | SUCCESS
  | FAILURE
deriving DecidableEq, Repr

/-- The value-level view of a `TaskData` (core.py:15-55): a string-keyed
mapping (values modelled as opaque naturals) plus the task-history list. -/
structure TaskDataV where
  data : List (String × Nat)
  task_history : List String
deriving DecidableEq, Repr

/-- `TaskData.add_task_history` (core.py:31-36). -/
def TaskDataV.add_task_history (d : TaskDataV) (task_name : String) : TaskDataV :=
  { d with task_history := d.task_history ++ [task_name] }

/-- `TaskContext` (core.py:58-81): the shared data plus the identity of the
currently running task, job and workflow. -/
structure TaskContext where
  data : TaskDataV
  task_name : String
  job_name : String
  workflow_name : String
deriving DecidableEq, Repr

/-- `TaskContext.__init__` (core.py:61): `data`, `task_name`, `job_name` and
`workflow_name` are all required positional parameters with no defaults; a
call that omits any of them raises `TypeError` before the object exists. -/
def taskContextInit (data : TaskDataV) (task_name job_name workflow_name : Option String) :
    Except PyErr TaskContext :=
  match task_name, job_name, workflow_name with
  | some tn, some jn, some wn => .ok ⟨data, tn, jn, wn⟩
  | _, _, _ => .error .typeError

/-- The mutable fields of a `Task` (core.py:94-179) that `Task.run` touches:
its name, `skip` flag, state and captured error information. -/
structure TaskM where
  name : String
  skip : Bool
  state : TaskState
  err_info : Option String
deriving DecidableEq, Repr

/-- A Python callable passed as `setup`/`callback`/`teardown`: it mutates the
context in place and either returns (no exception) or raises, in which case
the mutations it made so far are kept (Python exceptions do not roll back
side effects).  The `Option String` is the raised exception's rendered
traceback text (`utils.get_tb_str`), `none` when no exception is raised. -/
def PyCallable : Type := TaskContext → TaskContext × Option String

/-- Observable events of one `Task.run` call: which callables were invoked and
which names were appended to the shared task history. -/
inductive RunEvent where
  | setupCall
  | callbackCall
  | teardownCall
  | histAppend (n : String)
deriving DecidableEq, Repr

/-- Calling a `Bool` value as a function.  `Task.run` (core.py:190) executes
`self.is_pending()`, but `is_pending` (core.py:164-166) is a `@property`, so
the call expression applies the property's boolean *value* — Python raises
`TypeError: 'bool' object is not callable`, whatever the boolean is. -/
def pyCallBool (_b : Bool) : Except PyErr Bool :=
  .error .typeError

/-- `Task.run` (core.py:181-211), translated statement by statement.  Returns
the task after the call, the context after the call, the observable events in
order, and either `.ok ()` (normal return) or the propagated exception.

The body after the guard is translated faithfully even though the guard makes
it unreachable: `if not self.is_pending():` evaluates `pyCallBool` on the
value of the `is_pending` property and therefore always raises `TypeError`
before any state change. -/
def taskRun (t : TaskM) (setup teardown : Option PyCallable) (callback : PyCallable)
    (ctx : TaskContext) : TaskM × TaskContext × List RunEvent × Except PyErr Unit :=
  match pyCallBool (t.state == TaskState.PENDING) with
  | .error e => (t, ctx, [], .error e)
  | .ok pending =>
    if !pending then
      -- core.py:191 `raise ValueError(...)`
      (t, ctx, [], .error .valueError)
    else if t.skip then
      -- core.py:192-193, then core.py:210 history append
      let t' := { t with state := TaskState.SKIPPED }
      (t', { ctx with data := ctx.data.add_task_history t.name },
        [.histAppend t.name], .ok ())
    else
      -- core.py:195 `self._state = TaskState.INPROGRESS`
      let t1 := { t with state := TaskState.INPROGRESS }
      -- inner `try: setup?; callback finally: teardown?` (core.py:197-204)
      let inner : TaskContext × List RunEvent × Option String :=
        match setup with
        | some s =>
          match s ctx with
          | (c, some m) => (c, [.setupCall], some m)
          | (c, none) =>
            match callback c with
            | (c2, r) => (c2, [.setupCall, .callbackCall], r)
        | none =>
          match callback ctx with
          | (c2, r) => (c2, [.callbackCall], r)
      let fin : TaskContext × List RunEvent × Option String :=
        match teardown with
        | some td =>
          match td inner.1 with
          -- an exception raised in the `finally` block replaces the in-flight one
          | (c, some m) => (c, inner.2.1 ++ [.teardownCall], some m)
          | (c, none) => (c, inner.2.1 ++ [.teardownCall], inner.2.2)
        | none => inner
      match fin with
      | (c, evs, some m) =>
        -- core.py:205-207: bare `except:` captures the traceback, state FAILURE
        let t2 := { t1 with state := TaskState.FAILURE, err_info := some m }
        (t2, { c with data := c.data.add_task_history t.name },
          evs ++ [.histAppend t.name], .ok ())
      | (c, evs, none) =>
        -- core.py:208-209 `else:` state SUCCESS
        let t2 := { t1 with state := TaskState.SUCCESS }
        (t2, { c with data := c.data.add_task_history t.name },
          evs ++ [.histAppend t.name], .ok ())

/-- `Job.state` (core.py:267-282): the derived job state, computed from the
*set* of the tasks' states (`{task.state for task in self.tasks}`). -/
def jobStateOf (tasks : List TaskM) : JobState :=
  let task_states : Finset TaskState := (tasks.map TaskM.state).toFinset
  if task_states = ∅ ∨ task_states = {TaskState.PENDING} then JobState.PENDING
  else if TaskState.INPROGRESS ∈ task_states then JobState.INPROGRESS
  else if TaskState.FAILURE ∈ task_states then JobState.FAILURE
  else if task_states = {TaskState.SKIPPED} then JobState.SKIPPED
  else if TaskState.PENDING ∈ task_states then JobState.PAUSED
  else JobState.SUCCESS

/-- Modelled from the spec (§4.4): the job-state priority list evaluated
top-to-bottom over the tasks' states, first match wins. -/
def specJobState (tasks : List TaskM) : JobState :=
  let states := tasks.map TaskM.state
  if states.isEmpty || states.all (· == TaskState.PENDING) then JobState.PENDING
  else if states.any (· == TaskState.INPROGRESS) then JobState.INPROGRESS
  else if states.any (· == TaskState.FAILURE) then JobState.FAILURE
  else if states.all (· == TaskState.SKIPPED) then JobState.SKIPPED
  else if states.any (· == TaskState.PENDING) then JobState.PAUSED
  else JobState.SUCCESS

/-- A `Job` as `core.py` sees it: a name and the task list (`self._tasks`). -/
structure JobM where
  name : String
  tasks : List TaskM
deriving DecidableEq, Repr

/-- Mutation of a job's task sequence through `job.tasks.append(t)`.
`Job.tasks` (core.py:284-287) is a property that returns `self._tasks`
itself — the caller gets the live list, and `list.append` performs no state
check, so the append always succeeds, whatever the tasks' states. -/
def jobTasksAppend (j : JobM) (t : TaskM) : Except PyErr JobM :=
  .ok { j with tasks := j.tasks ++ [t] }

/-- Mutation of a job's task sequence through `job.tasks = value`.  The
`tasks` property (core.py:284-287) defines no setter, so the assignment
raises `AttributeError` in every state, even before the job runs. -/
def jobTasksAssign (_j : JobM) (_ts : List TaskM) : Except PyErr JobM :=
  .error .attributeError

/-- A value of the explicit dependency mapping (`Workflow.dependencies`):
the source tolerates a single task or a Python list of tasks (`example.py`
uses both shapes). -/
inductive DepValue where
  | single (t : Nat)
  | tlist (ts : List Nat)
deriving DecidableEq, Repr

/-- An element of a schema value list after the merge in `_make_graph`
(core.py:367-375): implicit edges contribute plain tasks, while
`schema.setdefault(k, []).append(v)` appends the dependency *value* as one
element — a task, or a whole Python list when the user supplied a list.
`noneE` models a `None` entry, which the sanitising pass (core.py:382-396)
turns into a standalone node. -/
inductive SElem where
  | node (t : Nat)
  | nested (ts : List Nat)
  | noneE
deriving DecidableEq, Repr

/-- A Python-dict-like association list: insertion ordered, unique keys. -/
abbrev Schema : Type := List (Nat × List SElem)

/-- `schema[k] = v` : dict assignment — replace in place if the key exists,
otherwise append. -/
def schemaSet (s : Schema) (k : Nat) (v : List SElem) : Schema :=
  match s with
  | [] => [(k, v)]
  | (k', v') :: rest =>
    if k' = k then (k', v) :: rest else (k', v') :: schemaSet rest k v

/-- `schema.setdefault(k, []).append(e)` : append one element to the key's
list, creating the key with `[e]` if absent. -/
def schemaAppend (s : Schema) (k : Nat) (e : SElem) : Schema :=
  match s with
  | [] => [(k, [e])]
  | (k', v') :: rest =>
    if k' = k then (k', v' ++ [e]) :: rest else (k', v') :: schemaAppend rest k e

/-- The implicit-edge pass of `_make_graph` (core.py:367-371): for every job,
raise `ValueError` if it is empty, else `schema[job[i]] = [job[i+1]]` for each
consecutive pair.  A job is its task list (tasks as identifiers). -/
def implicitSchema : List (List Nat) → Schema → Except PyErr Schema
  | [], s => .ok s
  | job :: rest, s =>
    if job.isEmpty then .error .valueError   -- core.py:368-369 `Empty job without any tasks`
    else
      implicitSchema rest
        ((List.range (job.length - 1)).foldl
          (fun acc i => schemaSet acc job[i]! [SElem.node job[i+1]!]) s)

/-- The explicit-dependency merge of `_make_graph` (core.py:373-375):
`schema.setdefault(k, []).append(v)` for each mapping item, in order. -/
def addDeps : Schema → List (Nat × DepValue) → Schema
  | s, [] => s
  | s, (k, DepValue.single t) :: rest => addDeps (schemaAppend s k (SElem.node t)) rest
  | s, (k, DepValue.tlist ts) :: rest => addDeps (schemaAppend s k (SElem.nested ts)) rest

/-- The sanitising pass of `_make_graph` (core.py:380-396) applied to one
schema value.  After the merge every value is a non-`None` Python list, so
only the `isinstance(children, list)` arm is live: a non-empty list is kept
as is, an empty list becomes `[None]`. -/
def sanitizeChildren (children : List SElem) : List SElem :=
  if children.isEmpty then [SElem.noneE] else children

/-- A `networkx.DiGraph` as the engine uses it: insertion-ordered node and
edge lists without duplicates. -/
structure Graph where
  nodes : List Nat
  edges : List (Nat × Nat)
deriving DecidableEq, Repr

/-- `graph.add_node(n)`. -/
def Graph.addNode (g : Graph) (n : Nat) : Graph :=
  if n ∈ g.nodes then g else { g with nodes := g.nodes ++ [n] }

/-- `graph.add_edge(u, v)`: inserts both endpoints, then the edge. -/
def Graph.addEdge (g : Graph) (u v : Nat) : Graph :=
  let g1 := (g.addNode u).addNode v
  if (u, v) ∈ g1.edges then g1 else { g1 with edges := g1.edges ++ [(u, v)] }

/-- The graph-building loop of `_make_graph` (core.py:399-406) over the
sanitised schema.  A `nested` child is a Python `list` used as a graph node:
`add_edge` hashes it and raises `TypeError: unhashable type: 'list'`. -/
def buildGraph : List (Nat × List SElem) → Graph → Except PyErr Graph
  | [], g => .ok g
  | (parent, children) :: rest, g =>
    match buildChildren parent children g with
    | .error e => .error e
    | .ok g' => buildGraph rest g'
where
  buildChildren (parent : Nat) : List SElem → Graph → Except PyErr Graph
    | [], g => .ok g
    | SElem.node c :: cs, g => buildChildren parent cs (g.addEdge parent c)
    | SElem.nested _ :: _, _ => .error .typeError
    | SElem.noneE :: cs, g => buildChildren parent cs (g.addNode parent)

/-- Nodes of the graph that are ready to be emitted once the nodes in `done`
have been emitted: present, not yet emitted, and every incoming edge starts
in `done` (the zero-remaining-in-degree frontier of Kahn's algorithm). -/
def Graph.ready (g : Graph) (done : List Nat) : List Nat :=
  g.nodes.filter fun n =>
    !(decide (n ∈ done)) && g.edges.all fun e => !(e.2 == n) || decide (e.1 ∈ done)

/-- Leftmost element minimising `key`. -/
def pickMinBy (key : Nat → Nat) : List Nat → Option Nat
  | [] => none
  | n :: ns =>
    match pickMinBy key ns with
    | none => some n
    | some m => if key n ≤ key m then some n else some m

/-- One greedy Kahn pass: repeatedly emit the ready node with the smallest
key.  Models `networkx.lexicographical_topological_sort(graph, key=...)`,
which yields, at every step, the smallest-keyed node whose predecessors have
all been yielded.  Fuel bounds the iteration; `g.nodes.length` steps suffice
on an acyclic graph. -/
def lexTopoAux (g : Graph) (key : Nat → Nat) : Nat → List Nat → List Nat
  | 0, done => done
  | fuel + 1, done =>
    match pickMinBy key (g.ready done) with
    | none => done
    | some n => lexTopoAux g key fuel (done ++ [n])

/-- The full lexicographical topological sort used at core.py:421. -/
def lexTopoSort (g : Graph) (key : Nat → Nat) : List Nat :=
  lexTopoAux g key g.nodes.length []

/-- Models `networkx.is_directed_acyclic_graph` (core.py:360): a directed
graph is acyclic iff Kahn's algorithm consumes every node. -/
def Graph.isDag (g : Graph) : Bool :=
  (lexTopoAux g (fun n => n) g.nodes.length []).length == g.nodes.length

/-- The schema after the explicit-dependency merge (core.py:373-375): the
merge runs only when `self.dependencies` is truthy — a non-`None`, non-empty
dict. -/
def mergedSchema (schema0 : Schema) (dependencies : Option (List (Nat × DepValue))) : Schema :=
  match dependencies with
  | none => schema0
  | some deps => if deps.isEmpty then schema0 else addDeps schema0 deps

/-- `Workflow._make_graph` (core.py:363-410) end to end: implicit edges,
explicit-dependency merge (skipped when `self.dependencies` is falsy — `None`
or an empty dict), the dead `if schema is None` test (core.py:377-378:
`schema` is always a dict, so `DirectedAcyclicGraphUndefined` is never
raised), sanitising, graph building, and the acyclicity validation
(core.py:359-361, `DirectedAcyclicGraphInvalid` on a cycle). -/
def makeGraph (jobs : List (List Nat)) (dependencies : Option (List (Nat × DepValue))) :
    Except PyErr Graph :=
  match implicitSchema jobs [] with
  | .error e => .error e
  | .ok schema0 =>
    let schema := mergedSchema schema0 dependencies
    -- core.py:377 `if schema is None:` — `schema` is a dict, never `None`
    let schemaIsNone := false
    if schemaIsNone then .error .dagUndefined
    else
      let sanitized := schema.map fun pc => (pc.1, sanitizeChildren pc.2)
      match buildGraph sanitized ⟨[], []⟩ with
      | .error e => .error e
      | .ok graph => if graph.isDag then .ok graph else .error .dagInvalid

/-- The declaration order `lexicographic = [t for job in self.jobs for t in job]`
(core.py:416). -/
def declarationOrder (jobs : List (List Nat)) : List Nat :=
  jobs.flatten

/-- The execution order computed at core.py:416/421: the lexicographical
topological sort of the built graph keyed by `lexicographic.index`.
`list.index` raises `ValueError` when a node is not in the declaration
list, which the model checks up front. -/
def executionOrder (jobs : List (List Nat)) (dependencies : Option (List (Nat × DepValue))) :
    Except PyErr (List Nat) :=
  match makeGraph jobs dependencies with
  | .error e => .error e
  | .ok g =>
    let lexicographic := declarationOrder jobs
    if g.nodes.all (fun n => lexicographic.contains n) then
      .ok (lexTopoSort g (fun n => lexicographic.indexOf n))
    else .error .valueError

/-- `Workflow.run` (core.py:412-437), translated in execution order.  The
result is the workflow's `_state` after the call, the list of tasks whose
`run` was invoked, and the call's outcome.

* core.py:413 `self._state = WorkflowState.INPROGRESS` writes the field
  directly and succeeds.
* core.py:414 `graph = self._make_graph()` — a construction error propagates.
* core.py:418 `context = TaskContext(data=TaskData())` omits the required
  `task_name`, `job_name` and `workflow_name` parameters, so the constructor
  raises `TypeError`; the execution loop (core.py:421-437) is unreachable and
  no task ever runs.  (Had it been reached, `self.state = ...` at
  core.py:431/437 would raise `AttributeError` — the `state` property has no
  setter — and `task.run` itself raises `TypeError` at its guard.) -/
def workflowRun (jobs : List (List Nat)) (dependencies : Option (List (Nat × DepValue))) :
    WorkflowState × List Nat × Except PyErr Unit :=
  let st := WorkflowState.INPROGRESS
  match makeGraph jobs dependencies with
  | .error e => (st, [], .error e)
  | .ok g =>
    let _n_nodes := g.nodes.length
    let _lexicographic := declarationOrder jobs
    match taskContextInit ⟨[], []⟩ none none none with
    | .error e => (st, [], .error e)
    | .ok _context => (st, [], .ok ())   -- unreachable: the init call always raises

/-- A heap of Python list/dict objects, for the aliasing-sensitive
`TaskData.__deepcopy__` claim: `hist` maps a list address to the history list
stored there, `dict` maps a dict address to the mapping stored there;
`nextHist`/`nextDict` are the next fresh addresses. -/
structure Heap where
  hist : Nat → List String
  dict : Nat → List (String × Nat)
  nextHist : Nat
  nextDict : Nat

/-- A `TaskData` object as a pair of references into the heap:
`self._data` and `self._task_history` (core.py:26-29). -/
structure TaskDataRef where
  dataRef : Nat
  histRef : Nat
deriving DecidableEq, Repr

/-- A `TaskData` reference is valid in a heap when its two references were
actually allocated. -/
def TaskDataRef.Valid (td : TaskDataRef) (h : Heap) : Prop :=
  td.dataRef < h.nextDict ∧ td.histRef < h.nextHist

/-- `TaskData.__deepcopy__` (core.py:47-49):
`TaskData(data=deepcopy(self._data, memo), task_history=self._task_history[:])`.
`deepcopy` of the mapping allocates a fresh dict with equal contents (the
values are modelled as immutable atoms), and `[:]` together with the
constructor's `list(...)` (core.py:29) allocates a fresh history list with
equal contents.  Returns the updated heap and the new object. -/
def TaskDataRef.deepcopy (td : TaskDataRef) (h : Heap) : Heap × TaskDataRef :=
  ({ hist := fun a => if a = h.nextHist then h.hist td.histRef else h.hist a
     dict := fun a => if a = h.nextDict then h.dict td.dataRef else h.dict a
     nextHist := h.nextHist + 1
     nextDict := h.nextDict + 1 },
   { dataRef := h.nextDict, histRef := h.nextHist })

/-- `TaskData.add_task_history` (core.py:31-36) on the heap model: mutate the
history list the object references, in place. -/
def TaskDataRef.addHist (td : TaskDataRef) (h : Heap) (task_name : String) : Heap :=
  { h with hist := fun a => if a = td.histRef then h.hist td.histRef ++ [task_name] else h.hist a }

/-- Modelled heap state for the deep-copy witness: one allocated history list
and one allocated mapping, both at address 0. -/
def heap0 : Heap :=
  { hist := fun _ => ["a"], dict := fun _ => [("k", 5)], nextHist := 1, nextDict := 1 }

/-- `L` is a topological order of `g`: it enumerates exactly the nodes, each
once, and never places the target of an edge before its source.  (The last
conjunct rules out self-loops, which admit no topological order at all.) -/
def IsTopoOrder (g : Graph) (L : List Nat) : Prop :=
  (∀ n, n ∈ L ↔ n ∈ g.nodes) ∧ L.Nodup ∧
  L.Pairwise (fun a b => (b, a) ∉ g.edges) ∧ ∀ u, (u, u) ∉ g.edges

/-- Every edge endpoint is a node (an invariant of graphs built through
`addNode`/`addEdge`). -/
def Graph.EdgeClosed (g : Graph) : Prop :=
  ∀ e ∈ g.edges, e.1 ∈ g.nodes ∧ e.2 ∈ g.nodes

/-- The schema maps key `k` to a child list containing the element `e`. -/
def SchemaHas (s : Schema) (k : Nat) (e : SElem) : Prop :=
  ∃ p ∈ s, p.1 = k ∧ e ∈ p.2

/-! ## Theorems -/

/-- C5: for every task, in every state (including PENDING) and with every
context, `Task.run` raises `TypeError` before performing any state change —
the guard `if not self.is_pending():` (core.py:190) calls the boolean value of
the `is_pending` property as if it were a method.  The task (state and
`err_info` included) and the context are returned unchanged, no
setup/callback/teardown callable is invoked and nothing is appended to the
context data's task history (the event list is empty). -/
theorem task_run_always_typeError (t : TaskM) (setup teardown : Option PyCallable)
    (callback : PyCallable) (ctx : TaskContext) :
    taskRun t setup teardown callback ctx = (t, ctx, [], .error PyErr.typeError) := rfl

/-- C4: the code contradicts the claimed (and documented) `Task.run`
lifecycle: a PENDING task with the `skip` flag set does not become SKIPPED
and appends nothing to the history — the call raises `TypeError` at the
`self.is_pending()` guard, leaving the task and context untouched. -/
theorem task_run_skip_diverges :
    taskRun ⟨"t", true, TaskState.PENDING, none⟩ none none (fun c => (c, none))
        ⟨⟨[], []⟩, "t", "j", "w"⟩ =
      (⟨"t", true, TaskState.PENDING, none⟩, ⟨⟨[], []⟩, "t", "j", "w"⟩, [],
        .error PyErr.typeError) := rfl

/-- C1: the code contradicts the claimed `Workflow.run` behaviour: on a
workflow with one job of two tasks, `run()` sets the state to INPROGRESS,
builds the graph, and then raises `TypeError` at
`TaskContext(data=TaskData())` (core.py:418 — the required
`task_name`/`job_name`/`workflow_name` arguments are missing), so no task
ever executes, the exception propagates to the caller, and the state is left
INPROGRESS (neither FAILURE nor SUCCESS is ever reached). -/
theorem workflow_run_raises_typeError :
    workflowRun [[0, 1]] none =
      (WorkflowState.INPROGRESS, [], .error PyErr.typeError) := rfl

/-- C7: the code contradicts the claim that every task of a non-empty job is
a graph node: a job consisting of a single task with no explicit dependency
entry contributes nothing to the schema (`for i in range(len(job)-1)` adds no
entry), so `_make_graph` returns an *empty* graph and the task is never
scheduled: the computed execution order is empty. -/
theorem single_task_job_not_scheduled :
    makeGraph [[0]] none = .ok ⟨[], []⟩ ∧ executionOrder [[0]] none = .ok [] :=
  ⟨rfl, rfl⟩

/-- C8: the code contradicts the claim that a workflow with no jobs and no
dependencies fails with `DirectedAcyclicGraphUndefined`: `schema` is always a
dict, so the `if schema is None` test (core.py:377) never fires and
`_make_graph` returns an empty graph instead of raising. -/
theorem empty_workflow_graph_built :
    makeGraph [] none = .ok ⟨[], []⟩ ∧
    makeGraph [] none ≠ .error PyErr.dagUndefined :=
  ⟨rfl, fun hc => by
    rw [show makeGraph [] none = .ok (⟨[], []⟩ : Graph) from rfl] at hc
    exact Except.noConfusion hc⟩

/-- C3 counterexample: for jobs A=[a1,a2]=[0,1], B=[b1,b2]=[2,3] with the
explicit dependencies \x7ba1: [b1], a2: b1\x7d, the computed execution order is
not the claimed `b1, a1, a2, b2` = [2, 0, 1, 3]: graph construction raises
`TypeError` (the list value `[b1]` is appended as a single unhashable
element and `add_edge` cannot hash it), so no order is computed at all. -/
theorem dependency_example_order_refuted :
    executionOrder [[0, 1], [2, 3]] (some [(0, DepValue.tlist [2]), (1, DepValue.single 2)]) ≠
      .ok [2, 0, 1, 3] ∧
    executionOrder [[0, 1], [2, 3]] (some [(0, DepValue.tlist [2]), (1, DepValue.single 2)]) =
      .error PyErr.typeError :=
  ⟨fun hc => by
    rw [show executionOrder [[0, 1], [2, 3]]
          (some [(0, DepValue.tlist [2]), (1, DepValue.single 2)]) =
        .error PyErr.typeError from rfl] at hc
    exact Except.noConfusion hc, rfl⟩

/-- C9 counterexample: a job whose first (and only) task has left PENDING
state (it is in FAILURE) does *not* reject mutation of its task sequence:
appending through the `tasks` property succeeds and the list grows. -/
theorem job_mutation_after_failure_allowed :
    jobTasksAppend ⟨"J", [⟨"t1", false, TaskState.FAILURE, some "tb"⟩]⟩
        ⟨"t2", false, TaskState.PENDING, none⟩ =
      .ok ⟨"J", [⟨"t1", false, TaskState.FAILURE, some "tb"⟩,
                 ⟨"t2", false, TaskState.PENDING, none⟩]⟩ := rfl

/-- C9 amended: `core.Job` never state-guards task-sequence mutation:
appending through the list returned by the `tasks` property succeeds in every
state (even after tasks have run), while *assigning* to the property fails
with `AttributeError` in every state (the property defines no setter), even
before the job starts running. -/
theorem job_tasks_mutation_unguarded (j : JobM) (t : TaskM) (ts : List TaskM) :
    jobTasksAppend j t = .ok { j with tasks := j.tasks ++ [t] } ∧
    jobTasksAssign j ts = .error PyErr.attributeError := ⟨rfl, rfl⟩

/-- C10: deep-copying a `TaskData` yields a copy whose mapping contents and
task-history contents equal the original's, leaves the original untouched,
and makes the two histories independent: appending a task name to the copy's
history leaves the original's history unchanged, and appending to the
original's history leaves the copy's unchanged. -/
theorem taskdata_deepcopy_independent (h : Heap) (td : TaskDataRef) (hv : td.Valid h)
    (s s2 : String) :
    ((td.deepcopy h).1.dict (td.deepcopy h).2.dataRef = h.dict td.dataRef) ∧
    ((td.deepcopy h).1.hist (td.deepcopy h).2.histRef = h.hist td.histRef) ∧
    ((td.deepcopy h).1.dict td.dataRef = h.dict td.dataRef) ∧
    ((td.deepcopy h).1.hist td.histRef = h.hist td.histRef) ∧
    (((td.deepcopy h).2.addHist (td.deepcopy h).1 s).hist td.histRef = h.hist td.histRef) ∧
    ((td.addHist (td.deepcopy h).1 s2).hist (td.deepcopy h).2.histRef = h.hist td.histRef) := by
  obtain ⟨hd, hh⟩ := hv
  have hd' : td.dataRef ≠ h.nextDict := Nat.ne_of_lt hd
  have hh' : td.histRef ≠ h.nextHist := Nat.ne_of_lt hh
  simp [TaskDataRef.deepcopy, TaskDataRef.addHist, hd', hh', Ne.symm hh']

/-- Witness for C10 at a concrete heap holding one history list and one
mapping. -/
theorem taskdata_deepcopy_independent_witness :
    TaskDataRef.Valid ⟨0, 0⟩ heap0 ∧
    ((TaskDataRef.deepcopy ⟨0, 0⟩ heap0).1.hist
        (TaskDataRef.deepcopy ⟨0, 0⟩ heap0).2.histRef = heap0.hist 0) ∧
    ((TaskDataRef.addHist ⟨0, 0⟩ (TaskDataRef.deepcopy ⟨0, 0⟩ heap0).1 "b").hist
        (TaskDataRef.deepcopy ⟨0, 0⟩ heap0).2.histRef = heap0.hist 0) :=
  ⟨⟨Nat.zero_lt_one, Nat.zero_lt_one⟩,
    (taskdata_deepcopy_independent heap0 ⟨0, 0⟩ ⟨Nat.zero_lt_one, Nat.zero_lt_one⟩ "b" "b").2.1,
    (taskdata_deepcopy_independent heap0 ⟨0, 0⟩ ⟨Nat.zero_lt_one, Nat.zero_lt_one⟩ "b" "b").2.2.2.2.2⟩

theorem toFinset_eq_singleton_iff {α : Type} [DecidableEq α] (l : List α) (a : α) :
    l.toFinset = {a} ↔ l ≠ [] ∧ ∀ x ∈ l, x = a := by
  constructor
  · intro h
    refine ⟨?_, ?_⟩
    · intro hnil
      subst hnil
      simp at h
      exact (Finset.singleton_ne_empty a) h.symm
    · intro x hx
      have hx' : x ∈ l.toFinset := List.mem_toFinset.2 hx
      rw [h] at hx'
      simpa using hx'
  · rintro ⟨hne, hall⟩
    obtain ⟨y, hy⟩ := List.exists_mem_of_ne_nil l hne
    have hay : a ∈ l := (hall y hy) ▸ hy
    refine Finset.eq_singleton_iff_unique_mem.2 ⟨List.mem_toFinset.2 hay, ?_⟩
    intro b hb
    exact hall b (List.mem_toFinset.1 hb)

/-- C6: the derived job state (`Job.state`, core.py:267-282) equals the
spec's priority list evaluated top-to-bottom over the tasks' states —
PENDING for no tasks or all PENDING; else INPROGRESS if any task is
INPROGRESS; else FAILURE if any is FAILURE; else SKIPPED if all are SKIPPED;
else PAUSED if any is still PENDING; else SUCCESS — first match wins. -/
theorem job_state_matches_priority_list (tasks : List TaskM) :
    jobStateOf tasks = specJobState tasks := by
  simp only [jobStateOf, specJobState]
  generalize (tasks.map TaskM.state) = l
  by_cases hne : l = []
  · subst hne; simp
  · have E1 : (l.toFinset = ∅ ∨ l.toFinset = {TaskState.PENDING}) ↔
        ((l.isEmpty || l.all (· == TaskState.PENDING)) = true) := by
      simp [List.toFinset_eq_empty_iff, toFinset_eq_singleton_iff,
        List.isEmpty_iff, List.all_eq_true, hne]
    have mem_any : ∀ c : TaskState, (c ∈ l.toFinset) ↔ ((l.any (· == c)) = true) := by
      intro c
      rw [List.mem_toFinset, List.any_eq_true]
      constructor
      · intro h
        exact ⟨c, h, by simp⟩
      · rintro ⟨x, hx, hxe⟩
        rw [beq_iff_eq] at hxe
        subst hxe
        exact hx
    have E2 := mem_any TaskState.INPROGRESS
    have E3 := mem_any TaskState.FAILURE
    have E4 : (l.toFinset = {TaskState.SKIPPED}) ↔
        ((l.all (· == TaskState.SKIPPED)) = true) := by
      simp [toFinset_eq_singleton_iff, List.all_eq_true, hne]
    have E5 := mem_any TaskState.PENDING
    simp only [E1, E2, E3, E4, E5]

theorem mem_ready {g : Graph} {done : List Nat} {n : Nat} :
    n ∈ g.ready done ↔
      n ∈ g.nodes ∧ n ∉ done ∧ ∀ u, (u, n) ∈ g.edges → u ∈ done := by
  simp only [Graph.ready, List.mem_filter, Bool.and_eq_true, Bool.not_eq_true',
    List.all_eq_true, Bool.or_eq_true, decide_eq_false_iff_not, decide_eq_true_eq,
    Bool.not_eq_true]
  constructor
  · rintro ⟨hn, hc, hall⟩
    refine ⟨hn, hc, ?_⟩
    intro u hu
    rcases hall (u, n) hu with h | h
    · simp at h
    · exact h
  · rintro ⟨hn, hd, hpred⟩
    refine ⟨hn, hd, ?_⟩
    intro e he
    by_cases h2 : e.2 = n
    · right
      refine hpred e.1 ?_
      rw [← h2]
      exact he
    · left
      simpa using h2


theorem pickMinBy_eq_none {key : Nat → Nat} :
    ∀ {l : List Nat}, pickMinBy key l = none ↔ l = [] := by
  intro l
  cases l with
  | nil => simp [pickMinBy]
  | cons n ns =>
    simp only [pickMinBy]
    cases h : pickMinBy key ns with
    | none => simp
    | some m =>
      by_cases hle : key n ≤ key m <;> simp [hle]

theorem pickMinBy_mem {key : Nat → Nat} :
    ∀ {l : List Nat} {n : Nat}, pickMinBy key l = some n → n ∈ l := by
  intro l
  induction l with
  | nil => intro n h; simp [pickMinBy] at h
  | cons a as ih =>
    intro n h
    simp only [pickMinBy] at h
    cases hrec : pickMinBy key as with
    | none =>
      rw [hrec] at h
      injection h with h
      subst h
      exact List.mem_cons_self a as
    | some m =>
      rw [hrec] at h
      have h' : (if key a ≤ key m then some a else some m) = some n := h
      by_cases hle : key a ≤ key m
      · rw [if_pos hle] at h'
        injection h' with h'
        subst h'
        exact List.mem_cons_self a as
      · rw [if_neg hle] at h'
        injection h' with h'
        subst h'
        exact List.mem_cons_of_mem a (ih hrec)

theorem pickMinBy_min {key : Nat → Nat} :
    ∀ {l : List Nat} {n : Nat}, pickMinBy key l = some n →
      ∀ m ∈ l, key n ≤ key m := by
  intro l
  induction l with
  | nil => intro n h; simp [pickMinBy] at h
  | cons a as ih =>
    intro n h m hm
    simp only [pickMinBy] at h
    cases hrec : pickMinBy key as with
    | none =>
      have has : as = [] := pickMinBy_eq_none.1 hrec
      subst has
      rw [hrec] at h
      injection h with h
      subst h
      rcases List.mem_cons.1 hm with h1 | h1
      · subst h1; exact Nat.le_refl _
      · simp at h1
    | some b =>
      rw [hrec] at h
      have h' : (if key a ≤ key b then some a else some b) = some n := h
      by_cases hle : key a ≤ key b
      · rw [if_pos hle] at h'
        injection h' with h'
        subst h'
        rcases List.mem_cons.1 hm with h1 | h1
        · subst h1; exact Nat.le_refl _
        · exact Nat.le_trans hle (ih hrec m h1)
      · rw [if_neg hle] at h'
        injection h' with h'
        subst h'
        rcases List.mem_cons.1 hm with h1 | h1
        · subst h1; exact Nat.le_of_lt (Nat.lt_of_not_le hle)
        · exact ih hrec m h1

/-- Structure of the greedy sort, independent of any acyclicity assumption:
the output extends `done` with a duplicate-free block of graph nodes outside
`done`, none of which carries a self-loop, and no later element has an edge
into an earlier one. -/
theorem lexTopoAux_spec (g : Graph) (key : Nat → Nat) :
    ∀ (fuel : Nat) (done : List Nat), ∃ out,
      lexTopoAux g key fuel done = done ++ out ∧
      out.Nodup ∧
      (∀ n ∈ out, n ∈ g.nodes ∧ n ∉ done ∧ (n, n) ∉ g.edges) ∧
      out.Pairwise (fun a b => (b, a) ∉ g.edges) := by
  intro fuel
  induction fuel with
  | zero =>
    intro done
    exact ⟨[], by simp [lexTopoAux], List.nodup_nil, by simp, List.Pairwise.nil⟩
  | succ fuel ih =>
    intro done
    simp only [lexTopoAux]
    cases hpick : pickMinBy key (g.ready done) with
    | none => exact ⟨[], by simp, List.nodup_nil, by simp, List.Pairwise.nil⟩
    | some n =>
      obtain ⟨hn_nodes, hn_done, hn_pred⟩ := mem_ready.1 (pickMinBy_mem hpick)
      have hn_self : (n, n) ∉ g.edges := fun hc => hn_done (hn_pred n hc)
      obtain ⟨out', heq, hnd, hmem, hpw⟩ := ih (done ++ [n])
      refine ⟨n :: out', ?_, ?_, ?_, ?_⟩
      · show lexTopoAux g key fuel (done ++ [n]) = done ++ n :: out'
        rw [heq, List.append_assoc, List.singleton_append]
      · refine List.nodup_cons.2 ⟨?_, hnd⟩
        intro hc
        exact (hmem n hc).2.1 (List.mem_append_right done (List.mem_singleton_self n))
      · intro x hx
        rcases List.mem_cons.1 hx with h1 | h1
        · subst h1; exact ⟨hn_nodes, hn_done, hn_self⟩
        · obtain ⟨h2, h3, h4⟩ := hmem x h1
          exact ⟨h2, fun hc => h3 (List.mem_append_left _ hc), h4⟩
      · refine List.pairwise_cons.2 ⟨?_, hpw⟩
        intro b hb hc
        have hb_done : b ∉ done ++ [n] := (hmem b hb).2.1
        exact hb_done (List.mem_append_left _ (hn_pred b hc))

/-- Greedy minimal-key selection computes the lexicographically smallest
topological completion.  `L` is any valid completion of `done`: it lists
exactly the not-yet-emitted nodes, respects the edges (no later-to-earlier
edge, and every edge into `L` starts in `done` or in `L`), and is
self-loop-free.  The greedy output is then a permutation of `L` that is
lexicographically no greater than `L` under `key`. -/
theorem lexTopoAux_min (g : Graph) (key : Nat → Nat)
    (hinj : ∀ a ∈ g.nodes, ∀ b ∈ g.nodes, key a = key b → a = b) :
    ∀ (fuel : Nat) (L done : List Nat),
      L.length ≤ fuel →
      (∀ n, n ∈ L ↔ n ∈ g.nodes ∧ n ∉ done) →
      L.Nodup →
      L.Pairwise (fun a b => (b, a) ∉ g.edges) →
      (∀ u v, (u, v) ∈ g.edges → v ∈ L → u ∈ done ∨ u ∈ L) →
      (∀ n ∈ L, (n, n) ∉ g.edges) →
      ∃ out, lexTopoAux g key fuel done = done ++ out ∧ out.Perm L ∧
        (out = L ∨ List.Lex (· < ·) (out.map key) (L.map key)) := by
  intro fuel
  induction fuel with
  | zero =>
    intro L done hlen hmem hnd hpw hcl hsl
    have hLnil : L = [] := List.eq_nil_of_length_eq_zero (Nat.le_zero.1 hlen)
    subst hLnil
    exact ⟨[], by simp [lexTopoAux], List.Perm.refl _, Or.inl rfl⟩
  | succ fuel ih =>
    intro L done hlen hmem hnd hpw hcl hsl
    cases L with
    | nil =>
      have hready : g.ready done = [] := by
        refine List.eq_nil_iff_forall_not_mem.2 ?_
        intro n hn
        obtain ⟨h1, h2, _⟩ := mem_ready.1 hn
        exact List.not_mem_nil n ((hmem n).2 ⟨h1, h2⟩)
      simp only [lexTopoAux, hready]
      exact ⟨[], by simp [pickMinBy], List.Perm.refl _, Or.inl rfl⟩
    | cons m tail =>
      have hm_mem : m ∈ g.nodes ∧ m ∉ done := ((hmem m).1 (List.mem_cons_self m tail)).imp id id
      have hm_ready : m ∈ g.ready done := by
        refine mem_ready.2 ⟨hm_mem.1, hm_mem.2, ?_⟩
        intro u hu
        rcases hcl u m hu (List.mem_cons_self m tail) with h | h
        · exact h
        · rcases List.mem_cons.1 h with h1 | h1
          · exact absurd (h1 ▸ hu) (hsl m (List.mem_cons_self m tail))
          · exact absurd hu ((List.pairwise_cons.1 hpw).1 u h1)
      cases hpick : pickMinBy key (g.ready done) with
      | none =>
        rw [pickMinBy_eq_none] at hpick
        rw [hpick] at hm_ready
        exact absurd hm_ready (List.not_mem_nil m)
      | some n =>
        have hn_ready := pickMinBy_mem hpick
        obtain ⟨hn_nodes, hn_done, hn_pred⟩ := mem_ready.1 hn_ready
        have hkey_le : key n ≤ key m := pickMinBy_min hpick m hm_ready
        simp only [lexTopoAux, hpick]
        have hmcons : m ∉ tail := (List.nodup_cons.1 hnd).1
        rcases eq_or_ne n m with hnm | hnm
        · subst hnm
          have hlen' : tail.length ≤ fuel := by
            simpa using Nat.le_of_succ_le_succ (by simpa using hlen)
          have hmem' : ∀ x, x ∈ tail ↔ x ∈ g.nodes ∧ x ∉ done ++ [n] := by
            intro x
            constructor
            · intro hx
              obtain ⟨h1, h2⟩ := (hmem x).1 (List.mem_cons_of_mem n hx)
              refine ⟨h1, ?_⟩
              intro hc
              rcases List.mem_append.1 hc with hc1 | hc1
              · exact h2 hc1
              · rw [List.mem_singleton] at hc1
                subst hc1
                exact hmcons hx
            · rintro ⟨h1, h2⟩
              have hx2 : x ∉ done := fun hc => h2 (List.mem_append_left _ hc)
              rcases List.mem_cons.1 ((hmem x).2 ⟨h1, hx2⟩) with h3 | h3
              · subst h3
                exact absurd (List.mem_append_right _ (List.mem_singleton_self x)) h2
              · exact h3
          have hcl' : ∀ u v, (u, v) ∈ g.edges → v ∈ tail → u ∈ done ++ [n] ∨ u ∈ tail := by
            intro u v huv hv
            rcases hcl u v huv (List.mem_cons_of_mem n hv) with h | h
            · exact Or.inl (List.mem_append_left _ h)
            · rcases List.mem_cons.1 h with h1 | h1
              · subst h1
                exact Or.inl (List.mem_append_right _ (List.mem_singleton_self u))
              · exact Or.inr h1
          obtain ⟨out', heq', hperm', hlex'⟩ :=
            ih tail (done ++ [n]) hlen' hmem' (List.nodup_cons.1 hnd).2
              (List.pairwise_cons.1 hpw).2 hcl'
              (fun x hx => hsl x (List.mem_cons_of_mem n hx))
          refine ⟨n :: out', ?_, List.Perm.cons n hperm', ?_⟩
          · rw [heq', List.append_assoc, List.singleton_append]
          · rcases hlex' with h | h
            · exact Or.inl (by rw [h])
            · exact Or.inr (by simpa using List.Lex.cons (by simpa using h))
        · have hnL : n ∈ m :: tail := (hmem n).2 ⟨hn_nodes, hn_done⟩
          have hkey_lt : key n < key m :=
            Nat.lt_of_le_of_ne hkey_le
              (fun hc => hnm (hinj n hn_nodes m hm_mem.1 hc))
          have hlen' : ((m :: tail).erase n).length ≤ fuel := by
            rw [List.length_erase_of_mem hnL]
            have := hlen
            simp only [List.length_cons] at this ⊢
            omega
          have hmem' : ∀ x, x ∈ (m :: tail).erase n ↔ x ∈ g.nodes ∧ x ∉ done ++ [n] := by
            intro x
            rw [hnd.mem_erase_iff]
            constructor
            · rintro ⟨hxn, hx⟩
              obtain ⟨h1, h2⟩ := (hmem x).1 hx
              refine ⟨h1, ?_⟩
              intro hc
              rcases List.mem_append.1 hc with hc1 | hc1
              · exact h2 hc1
              · rw [List.mem_singleton] at hc1
                exact hxn hc1
            · rintro ⟨h1, h2⟩
              have hx2 : x ∉ done := fun hc => h2 (List.mem_append_left _ hc)
              refine ⟨?_, (hmem x).2 ⟨h1, hx2⟩⟩
              intro hc
              subst hc
              exact h2 (List.mem_append_right _ (List.mem_singleton_self x))
          have hcl' : ∀ u v, (u, v) ∈ g.edges → v ∈ (m :: tail).erase n →
              u ∈ done ++ [n] ∨ u ∈ (m :: tail).erase n := by
            intro u v huv hv
            have hvL : v ∈ m :: tail := ((hnd.mem_erase_iff).1 hv).2
            rcases hcl u v huv hvL with h | h
            · exact Or.inl (List.mem_append_left _ h)
            · rcases eq_or_ne u n with h1 | h1
              · subst h1
                exact Or.inl (List.mem_append_right _ (List.mem_singleton_self u))
              · exact Or.inr ((hnd.mem_erase_iff).2 ⟨h1, h⟩)
          obtain ⟨out', heq', hperm', hlex'⟩ :=
            ih ((m :: tail).erase n) (done ++ [n]) hlen' hmem'
              (hnd.erase n)
              (List.Pairwise.sublist (List.erase_sublist n (m :: tail)) hpw)
              hcl'
              (fun x hx => hsl x (List.Sublist.mem hx (List.erase_sublist n (m :: tail))))
          refine ⟨n :: out', ?_, ?_, ?_⟩
          · rw [heq', List.append_assoc, List.singleton_append]
          · exact (List.Perm.cons n hperm').trans (List.perm_cons_erase hnL).symm
          · refine Or.inr ?_
            simp only [List.map_cons]
            exact List.Lex.rel hkey_lt

/-- On an acyclic graph with well-formed node list, Kahn's run with the
identity key produces a genuine topological order — in particular one
exists. -/
theorem isDag_topoOrder (g : Graph) (hec : g.EdgeClosed)
    (hdag : g.isDag = true) :
    IsTopoOrder g (lexTopoAux g (fun n => n) g.nodes.length []) := by
  obtain ⟨out, heq, hout_nd, hout_mem, hout_pw⟩ :=
    lexTopoAux_spec g (fun n => n) g.nodes.length []
  rw [List.nil_append] at heq
  rw [heq]
  have hlen : out.length = g.nodes.length := by
    have hd := hdag
    simp only [Graph.isDag] at hd
    rw [heq] at hd
    exact beq_iff_eq.1 hd
  have hsub : out ⊆ g.nodes := fun x hx => (hout_mem x hx).1
  have hperm : out.Perm g.nodes :=
    (hout_nd.subperm hsub).perm_of_length_le (Nat.le_of_eq hlen.symm)
  have hmem_iff : ∀ n, n ∈ out ↔ n ∈ g.nodes := fun n => hperm.mem_iff
  refine ⟨hmem_iff, hout_nd, hout_pw, ?_⟩
  intro u hc
  have hu_nodes : u ∈ g.nodes := (hec (u, u) hc).1
  exact (hout_mem u ((hmem_iff u).2 hu_nodes)).2.2 hc

theorem mem_addNode {g : Graph} {n x : Nat} :
    x ∈ (g.addNode n).nodes ↔ x ∈ g.nodes ∨ x = n := by
  unfold Graph.addNode
  by_cases h : n ∈ g.nodes
  · rw [if_pos h]
    constructor
    · exact Or.inl
    · rintro (h1 | h1)
      · exact h1
      · rw [h1]; exact h
  · rw [if_neg h]
    simp [List.mem_append]

theorem addNode_edges {g : Graph} {n : Nat} : (g.addNode n).edges = g.edges := by
  unfold Graph.addNode
  by_cases h : n ∈ g.nodes
  · rw [if_pos h]
  · rw [if_neg h]

theorem addNode_nodup {g : Graph} {n : Nat} (h : g.nodes.Nodup) :
    (g.addNode n).nodes.Nodup := by
  unfold Graph.addNode
  by_cases hn : n ∈ g.nodes
  · rw [if_pos hn]; exact h
  · rw [if_neg hn]
    simp [List.nodup_append, h, hn]

theorem addNode_closed {g : Graph} {n : Nat} (h : g.EdgeClosed) :
    (g.addNode n).EdgeClosed := by
  intro e he
  rw [addNode_edges] at he
  exact ⟨mem_addNode.2 (Or.inl (h e he).1), mem_addNode.2 (Or.inl (h e he).2)⟩

theorem addEdge_nodes {g : Graph} {u v : Nat} :
    (g.addEdge u v).nodes = ((g.addNode u).addNode v).nodes := by
  simp only [Graph.addEdge]
  by_cases h : (u, v) ∈ ((g.addNode u).addNode v).edges
  · rw [if_pos h]
  · rw [if_neg h]

theorem mem_addEdge_nodes {g : Graph} {u v x : Nat} :
    x ∈ (g.addEdge u v).nodes ↔ x ∈ g.nodes ∨ x = u ∨ x = v := by
  rw [addEdge_nodes]
  simp [mem_addNode, or_assoc]

theorem mem_addEdge_edges {g : Graph} {u v : Nat} {e : Nat × Nat} :
    e ∈ (g.addEdge u v).edges ↔ e ∈ g.edges ∨ e = (u, v) := by
  simp only [Graph.addEdge]
  by_cases h : (u, v) ∈ ((g.addNode u).addNode v).edges
  · rw [if_pos h]
    rw [addNode_edges, addNode_edges] at h ⊢
    constructor
    · exact Or.inl
    · rintro (h1 | h1)
      · exact h1
      · rw [h1]; exact h
  · rw [if_neg h]
    simp only [List.mem_append, List.mem_singleton]
    rw [addNode_edges, addNode_edges]

theorem addEdge_nodup {g : Graph} {u v : Nat} (h : g.nodes.Nodup) :
    (g.addEdge u v).nodes.Nodup := by
  have : ((g.addNode u).addNode v).nodes.Nodup := addNode_nodup (addNode_nodup h)
  rw [addEdge_nodes]
  exact this

theorem addEdge_closed {g : Graph} {u v : Nat} (h : g.EdgeClosed) :
    (g.addEdge u v).EdgeClosed := by
  intro e he
  rw [mem_addEdge_edges] at he
  rcases he with he | he
  · exact ⟨mem_addEdge_nodes.2 (Or.inl (h e he).1), mem_addEdge_nodes.2 (Or.inl (h e he).2)⟩
  · rw [he]
    exact ⟨mem_addEdge_nodes.2 (Or.inr (Or.inl rfl)), mem_addEdge_nodes.2 (Or.inr (Or.inr rfl))⟩

theorem buildChildren_inv (p : Nat) :
    ∀ (cs : List SElem) (g g' : Graph),
      buildGraph.buildChildren p cs g = .ok g' →
      g.EdgeClosed ∧ g.nodes.Nodup → g'.EdgeClosed ∧ g'.nodes.Nodup := by
  intro cs
  induction cs with
  | nil =>
    intro g g' h hi
    simp only [buildGraph.buildChildren] at h
    injection h with h
    rw [← h]
    exact hi
  | cons c cs ih =>
    intro g g' h hi
    cases c with
    | node t =>
      simp only [buildGraph.buildChildren] at h
      exact ih _ _ h ⟨addEdge_closed hi.1, addEdge_nodup hi.2⟩
    | nested ts =>
      simp only [buildGraph.buildChildren] at h
      exact Except.noConfusion h
    | noneE =>
      simp only [buildGraph.buildChildren] at h
      exact ih _ _ h ⟨addNode_closed hi.1, addNode_nodup hi.2⟩

theorem buildGraph_inv :
    ∀ (entries : List (Nat × List SElem)) (g g' : Graph),
      buildGraph entries g = .ok g' →
      g.EdgeClosed ∧ g.nodes.Nodup → g'.EdgeClosed ∧ g'.nodes.Nodup := by
  intro entries
  induction entries with
  | nil =>
    intro g g' h hi
    simp only [buildGraph] at h
    injection h with h
    rw [← h]
    exact hi
  | cons pc rest ih =>
    obtain ⟨parent, children⟩ := pc
    intro g g' h hi
    simp only [buildGraph] at h
    cases hbc : buildGraph.buildChildren parent children g with
    | error e =>
      rw [hbc] at h
      exact Except.noConfusion h
    | ok g1 =>
      rw [hbc] at h
      exact ih _ _ h (buildChildren_inv parent children g g1 hbc hi)

theorem makeGraph_ok_elim {jobs : List (List Nat)} {deps : Option (List (Nat × DepValue))}
    {g : Graph} (h : makeGraph jobs deps = .ok g) :
    ∃ schema0, implicitSchema jobs [] = .ok schema0 ∧
      buildGraph ((mergedSchema schema0 deps).map fun pc => (pc.1, sanitizeChildren pc.2))
        ⟨[], []⟩ = .ok g ∧
      g.isDag = true := by
  unfold makeGraph at h
  cases h1 : implicitSchema jobs [] with
  | error e =>
    rw [h1] at h
    exact Except.noConfusion h
  | ok schema0 =>
    rw [h1] at h
    have h2 : (match buildGraph
          ((mergedSchema schema0 deps).map fun pc => (pc.1, sanitizeChildren pc.2))
          ⟨[], []⟩ with
        | .error e => (Except.error e : Except PyErr Graph)
        | .ok graph =>
          if graph.isDag then .ok graph else .error PyErr.dagInvalid) = .ok g := h
    cases h3 : buildGraph
        ((mergedSchema schema0 deps).map fun pc => (pc.1, sanitizeChildren pc.2))
        ⟨[], []⟩ with
    | error e =>
      rw [h3] at h2
      exact Except.noConfusion h2
    | ok graph =>
      rw [h3] at h2
      have h4 : (if graph.isDag then (Except.ok graph : Except PyErr Graph)
          else .error PyErr.dagInvalid) = .ok g := h2
      by_cases h5 : graph.isDag = true
      · rw [if_pos h5] at h4
        injection h4 with h4
        rw [h4] at h3 h5
        exact ⟨schema0, rfl, h3, h5⟩
      · rw [if_neg h5] at h4
        exact Except.noConfusion h4

theorem makeGraph_ok_props {jobs : List (List Nat)} {deps : Option (List (Nat × DepValue))}
    {g : Graph} (h : makeGraph jobs deps = .ok g) :
    g.EdgeClosed ∧ g.nodes.Nodup ∧ g.isDag = true := by
  obtain ⟨schema0, _h1, h2, h3⟩ := makeGraph_ok_elim h
  have hi := buildGraph_inv _ _ _ h2
    ⟨fun e he => absurd he (List.not_mem_nil e), List.nodup_nil⟩
  exact ⟨hi.1, hi.2, h3⟩

theorem lexTopoSort_spec_vs (g : Graph) (key : Nat → Nat)
    (hinj : ∀ a ∈ g.nodes, ∀ b ∈ g.nodes, key a = key b → a = b)
    (hec : g.EdgeClosed) (hnd : g.nodes.Nodup) {L : List Nat}
    (hL : IsTopoOrder g L) :
    (lexTopoSort g key).Perm L ∧
    (lexTopoSort g key = L ∨
      List.Lex (· < ·) ((lexTopoSort g key).map key) (L.map key)) := by
  have hperm : L.Perm g.nodes := (List.perm_ext_iff_of_nodup hL.2.1 hnd).2 hL.1
  have hlen : L.length ≤ g.nodes.length := Nat.le_of_eq hperm.length_eq
  obtain ⟨out, heq, houtperm, hlex⟩ := lexTopoAux_min g key hinj g.nodes.length L [] hlen
    (by intro n; simpa using hL.1 n)
    hL.2.1 hL.2.2.1
    (fun u v huv hv => Or.inr ((hL.1 u).2 (hec (u, v) huv).1))
    (fun n _ => hL.2.2.2 n)
  rw [List.nil_append] at heq
  unfold lexTopoSort
  rw [heq]
  exact ⟨houtperm, hlex⟩

/-- C2: for every workflow definition whose graph builds, the execution order
computed at core.py:416/421 (the lexicographical topological sort of the
merged implicit+explicit graph, keyed by position in the declaration order —
the concatenation, in job-list order, of each job's task list) is a
topological order of that graph, and among all its topological orders it is
the lexicographically smallest with respect to declaration order.  The
computation is a pure function of the definition, hence identical across
repeated computations. -/
theorem execution_order_lex_min_topo (jobs : List (List Nat))
    (deps : Option (List (Nat × DepValue))) (g : Graph)
    (hg : makeGraph jobs deps = .ok g)
    (hsub : ∀ n ∈ g.nodes, n ∈ declarationOrder jobs) :
    executionOrder jobs deps =
      .ok (lexTopoSort g (fun n => (declarationOrder jobs).indexOf n)) ∧
    IsTopoOrder g (lexTopoSort g (fun n => (declarationOrder jobs).indexOf n)) ∧
    ∀ L, IsTopoOrder g L →
      lexTopoSort g (fun n => (declarationOrder jobs).indexOf n) = L ∨
      List.Lex (· < ·)
        ((lexTopoSort g (fun n => (declarationOrder jobs).indexOf n)).map
          (fun n => (declarationOrder jobs).indexOf n))
        (L.map (fun n => (declarationOrder jobs).indexOf n)) := by
  obtain ⟨hec, hnd_nodes, hdag⟩ := makeGraph_ok_props hg
  have hinj : ∀ a ∈ g.nodes, ∀ b ∈ g.nodes,
      (declarationOrder jobs).indexOf a = (declarationOrder jobs).indexOf b → a = b := by
    intro a ha b hb hk
    exact (List.indexOf_inj (hsub a ha) (hsub b hb)).1 hk
  have hL0 := isDag_topoOrder g hec hdag
  have hsort := lexTopoSort_spec_vs g (fun n => (declarationOrder jobs).indexOf n)
    hinj hec hnd_nodes hL0
  obtain ⟨out, heq, hout_nd, hout_mem, hout_pw⟩ :=
    lexTopoAux_spec g (fun n => (declarationOrder jobs).indexOf n) g.nodes.length []
  rw [List.nil_append] at heq
  have hsort_eq : lexTopoSort g (fun n => (declarationOrder jobs).indexOf n) = out := heq
  have htopo : IsTopoOrder g (lexTopoSort g (fun n => (declarationOrder jobs).indexOf n)) := by
    refine ⟨?_, by rw [hsort_eq]; exact hout_nd, by rw [hsort_eq]; exact hout_pw, hL0.2.2.2⟩
    intro n
    rw [hsort.1.mem_iff]
    exact hL0.1 n
  refine ⟨?_, htopo, ?_⟩
  · have hall : (g.nodes.all fun n => (declarationOrder jobs).contains n) = true := by
      rw [List.all_eq_true]
      intro n hn
      exact List.elem_iff.2 (hsub n hn)
    simp only [executionOrder, hg]
    rw [if_pos hall]
  · intro L hLt
    exact (lexTopoSort_spec_vs g (fun n => (declarationOrder jobs).indexOf n)
      hinj hec hnd_nodes hLt).2

/-- Witness for C2 on a concrete workflow: jobs A=[0,1] and B=[2,3] with the
explicit dependency mapping \x7b2: 3 before... namely (2, single 1)\x7d gives the
graph with edges 0→1, 2→3, 2→1; the computed order is its lexicographically
smallest topological order. -/
theorem execution_order_lex_min_topo_witness :
    executionOrder [[0, 1], [2, 3]] (some [(2, DepValue.single 1)]) =
      .ok (lexTopoSort ⟨[0, 1, 2, 3], [(0, 1), (2, 3), (2, 1)]⟩
        (fun n => (declarationOrder [[0, 1], [2, 3]]).indexOf n)) ∧
    IsTopoOrder ⟨[0, 1, 2, 3], [(0, 1), (2, 3), (2, 1)]⟩
      (lexTopoSort ⟨[0, 1, 2, 3], [(0, 1), (2, 3), (2, 1)]⟩
        (fun n => (declarationOrder [[0, 1], [2, 3]]).indexOf n)) :=
  ⟨(execution_order_lex_min_topo [[0, 1], [2, 3]] (some [(2, DepValue.single 1)])
      ⟨[0, 1, 2, 3], [(0, 1), (2, 3), (2, 1)]⟩ rfl (by decide)).1,
   (execution_order_lex_min_topo [[0, 1], [2, 3]] (some [(2, DepValue.single 1)])
      ⟨[0, 1, 2, 3], [(0, 1), (2, 3), (2, 1)]⟩ rfl (by decide)).2.1⟩

theorem schemaAppend_has (s : Schema) (k : Nat) (e : SElem) :
    SchemaHas (schemaAppend s k e) k e := by
  induction s with
  | nil =>
    exact ⟨(k, [e]), List.mem_singleton_self _, rfl, List.mem_singleton_self e⟩
  | cons p rest ih =>
    obtain ⟨k', v'⟩ := p
    simp only [schemaAppend]
    by_cases h : k' = k
    · rw [if_pos h]
      exact ⟨(k', v' ++ [e]), List.mem_cons_self _ _, h,
        List.mem_append_right _ (List.mem_singleton_self e)⟩
    · rw [if_neg h]
      obtain ⟨q, hq, hk, he⟩ := ih
      exact ⟨q, List.mem_cons_of_mem _ hq, hk, he⟩

theorem schemaAppend_mono {s : Schema} {k : Nat} {e : SElem} (h : SchemaHas s k e)
    (k' : Nat) (e' : SElem) : SchemaHas (schemaAppend s k' e') k e := by
  induction s with
  | nil =>
    obtain ⟨q, hq, _, _⟩ := h
    exact absurd hq (List.not_mem_nil q)
  | cons p rest ih =>
    obtain ⟨k0, v0⟩ := p
    simp only [schemaAppend]
    obtain ⟨q, hq, hqk, hqe⟩ := h
    by_cases hk : k0 = k'
    · rw [if_pos hk]
      rcases List.mem_cons.1 hq with h1 | h1
      · refine ⟨(k0, v0 ++ [e']), List.mem_cons_self _ _, ?_, ?_⟩
        · rw [h1] at hqk
          exact hqk
        · rw [h1] at hqe
          exact List.mem_append_left _ hqe
      · exact ⟨q, List.mem_cons_of_mem _ h1, hqk, hqe⟩
    · rw [if_neg hk]
      rcases List.mem_cons.1 hq with h1 | h1
      · exact ⟨q, List.mem_cons.2 (Or.inl h1), hqk, hqe⟩
      · obtain ⟨q2, hq2, hq2k, hq2e⟩ := ih ⟨q, h1, hqk, hqe⟩
        exact ⟨q2, List.mem_cons_of_mem _ hq2, hq2k, hq2e⟩

theorem addDeps_mono {k : Nat} {e : SElem} :
    ∀ (deps : List (Nat × DepValue)) (s : Schema), SchemaHas s k e →
      SchemaHas (addDeps s deps) k e := by
  intro deps
  induction deps with
  | nil =>
    intro s h
    simpa [addDeps] using h
  | cons d rest ih =>
    intro s h
    obtain ⟨dk, dv⟩ := d
    cases dv with
    | single t =>
      simp only [addDeps]
      exact ih _ (schemaAppend_mono h dk (SElem.node t))
    | tlist ts =>
      simp only [addDeps]
      exact ih _ (schemaAppend_mono h dk (SElem.nested ts))

theorem addDeps_has {k v : Nat} :
    ∀ (deps : List (Nat × DepValue)) (s : Schema), (k, DepValue.single v) ∈ deps →
      SchemaHas (addDeps s deps) k (SElem.node v) := by
  intro deps
  induction deps with
  | nil =>
    intro s h
    exact absurd h (List.not_mem_nil _)
  | cons d rest ih =>
    intro s h
    rcases List.mem_cons.1 h with h1 | h1
    · rw [← h1]
      simp only [addDeps]
      exact addDeps_mono rest _ (schemaAppend_has s k (SElem.node v))
    · obtain ⟨dk, dv⟩ := d
      cases dv with
      | single t =>
        simp only [addDeps]
        exact ih _ h1
      | tlist ts =>
        simp only [addDeps]
        exact ih _ h1

theorem sanitized_has {schema : Schema} {k : Nat} {e : SElem} (h : SchemaHas schema k e) :
    SchemaHas (schema.map fun pc => (pc.1, sanitizeChildren pc.2)) k e := by
  obtain ⟨p, hp, hk, he⟩ := h
  refine ⟨(p.1, sanitizeChildren p.2), List.mem_map.2 ⟨p, hp, rfl⟩, hk, ?_⟩
  unfold sanitizeChildren
  rw [if_neg]
  · exact he
  · intro hc
    rw [List.isEmpty_iff] at hc
    rw [hc] at he
    exact List.not_mem_nil e he

theorem buildChildren_mono (p : Nat) :
    ∀ (cs : List SElem) (g g' : Graph) (e : Nat × Nat),
      buildGraph.buildChildren p cs g = .ok g' → e ∈ g.edges → e ∈ g'.edges := by
  intro cs
  induction cs with
  | nil =>
    intro g g' e h he
    simp only [buildGraph.buildChildren] at h
    injection h with h
    rw [← h]
    exact he
  | cons c cs ih =>
    intro g g' e h he
    cases c with
    | node t =>
      simp only [buildGraph.buildChildren] at h
      exact ih _ _ e h (mem_addEdge_edges.2 (Or.inl he))
    | nested ts =>
      simp only [buildGraph.buildChildren] at h
      exact Except.noConfusion h
    | noneE =>
      simp only [buildGraph.buildChildren] at h
      refine ih _ _ e h ?_
      rw [addNode_edges]
      exact he

theorem buildChildren_adds (p : Nat) :
    ∀ (cs : List SElem) (g g' : Graph) (v : Nat),
      SElem.node v ∈ cs → buildGraph.buildChildren p cs g = .ok g' →
      (p, v) ∈ g'.edges := by
  intro cs
  induction cs with
  | nil =>
    intro g g' v hv _
    exact absurd hv (List.not_mem_nil _)
  | cons c cs ih =>
    intro g g' v hv h
    rcases List.mem_cons.1 hv with h1 | h1
    · rw [← h1] at h
      simp only [buildGraph.buildChildren] at h
      exact buildChildren_mono p cs _ _ (p, v) h (mem_addEdge_edges.2 (Or.inr rfl))
    · cases c with
      | node t =>
        simp only [buildGraph.buildChildren] at h
        exact ih _ _ v h1 h
      | nested ts =>
        simp only [buildGraph.buildChildren] at h
        exact Except.noConfusion h
      | noneE =>
        simp only [buildGraph.buildChildren] at h
        exact ih _ _ v h1 h

theorem buildGraph_mono :
    ∀ (entries : List (Nat × List SElem)) (g g' : Graph) (e : Nat × Nat),
      buildGraph entries g = .ok g' → e ∈ g.edges → e ∈ g'.edges := by
  intro entries
  induction entries with
  | nil =>
    intro g g' e h he
    simp only [buildGraph] at h
    injection h with h
    rw [← h]
    exact he
  | cons pc rest ih =>
    obtain ⟨parent, children⟩ := pc
    intro g g' e h he
    simp only [buildGraph] at h
    cases hbc : buildGraph.buildChildren parent children g with
    | error er =>
      rw [hbc] at h
      exact Except.noConfusion h
    | ok g1 =>
      rw [hbc] at h
      exact ih _ _ e h (buildChildren_mono parent children g g1 e hbc he)

theorem buildGraph_adds {k v : Nat} :
    ∀ (entries : List (Nat × List SElem)) (g g' : Graph),
      buildGraph entries g = .ok g' →
      (∃ p ∈ entries, p.1 = k ∧ SElem.node v ∈ p.2) →
      (k, v) ∈ g'.edges := by
  intro entries
  induction entries with
  | nil =>
    rintro g g' _ ⟨p, hp, _, _⟩
    exact absurd hp (List.not_mem_nil p)
  | cons pc rest ih =>
    obtain ⟨parent, children⟩ := pc
    rintro g g' h ⟨p, hp, hk, hv⟩
    simp only [buildGraph] at h
    cases hbc : buildGraph.buildChildren parent children g with
    | error er =>
      rw [hbc] at h
      exact Except.noConfusion h
    | ok g1 =>
      rw [hbc] at h
      rcases List.mem_cons.1 hp with h1 | h1
      · have hparent : parent = k := by
          rw [h1] at hk
          exact hk
        have hchild : SElem.node v ∈ children := by
          rw [h1] at hv
          exact hv
        have hedge : (parent, v) ∈ g1.edges := buildChildren_adds parent children g g1 v hchild hbc
        rw [hparent] at hedge
        exact buildGraph_mono rest g1 g' (k, v) h hedge
      · exact ih g1 g' h ⟨p, h1, hk, hv⟩

/-- C3 amended: for every workflow with an explicit dependency mapping, each
entry whose value is a *single* task `v` under key `k` contributes the edge
`k → v` to the graph — the key is scheduled before the value, the opposite of
the claimed direction; an entry whose value is a Python *list* is appended as
one unhashable element and makes graph construction raise `TypeError`; in
particular, for jobs A=[a1,a2]=[0,1], B=[b1,b2]=[2,3] with dependencies
\x7ba1: [b1], a2: b1\x7d, the engine raises `TypeError` and computes no order
at all (rather than the claimed b1, a1, a2, b2). -/
theorem dependency_single_value_edge_direction :
    (∀ (jobs : List (List Nat)) (deps : List (Nat × DepValue)) (k v : Nat) (g : Graph),
        makeGraph jobs (some deps) = .ok g →
        (k, DepValue.single v) ∈ deps → (k, v) ∈ g.edges) ∧
    executionOrder [[0, 1], [2, 3]] (some [(0, DepValue.tlist [2]), (1, DepValue.single 2)]) =
      .error PyErr.typeError := by
  refine ⟨?_, rfl⟩
  intro jobs deps k v g hg hmem
  obtain ⟨schema0, _h1, h2, _h3⟩ := makeGraph_ok_elim hg
  have hdeps_ne : ¬(deps.isEmpty = true) := by
    intro hc
    rw [List.isEmpty_iff] at hc
    rw [hc] at hmem
    exact List.not_mem_nil _ hmem
  have hms : mergedSchema schema0 (some deps) = addDeps schema0 deps := by
    show (if deps.isEmpty = true then schema0 else addDeps schema0 deps) = addDeps schema0 deps
    rw [if_neg hdeps_ne]
  rw [hms] at h2
  exact buildGraph_adds _ _ _ h2 (sanitized_has (addDeps_has deps schema0 hmem))

/-- Witness for the C3 amended theorem: two one-task jobs [0] and [1] with
the dependency \x7b0: 1\x7d produce the edge 0 → 1 (key before value). -/
theorem dependency_single_value_edge_direction_witness :
    (0, 1) ∈ (⟨[0, 1], [(0, 1)]⟩ : Graph).edges :=
  dependency_single_value_edge_direction.1 [[0], [1]] [(0, DepValue.single 1)] 0 1
    ⟨[0, 1], [(0, 1)]⟩ rfl (by decide)

end LightningFlow
